import Mathlib

/-!
Verification of the interpolation engine of the music-chord-probabilities
repository (frontend_ui/src/lib/probability.ts), shallowly embedded in Lean.

JS records (string-keyed maps with unique keys) are modelled as association
lists; JS numbers are modelled as exact rationals, so every floating
"within tolerance" statement becomes an exact equality.
-/

namespace ChordProb

/-- A JS Record<string, number>: association list from keys to rationals. -/
abbrev Record := List (String × ℚ)

/-- A row of a Record<string, NGramModel row>: context key to probability row. -/
abbrev NGramModel := List (String × Record)

/-- The three finalized probability tables (types/index.ts, interface Models). -/
structure Models where
  unigram : NGramModel
  bigram : NGramModel
  trigram : NGramModel

/-- interface InterpolationWeights (types/index.ts), field order as in source. -/
structure InterpolationWeights where
  lambda3 : ℚ
  lambda2 : ℚ
  lambda1 : ℚ
deriving DecidableEq, Repr

/-- const DEFAULT_WEIGHTS (probability.ts line 3). -/
def DEFAULT_WEIGHTS : InterpolationWeights :=
  ⟨0.60, 0.30, 0.10⟩

/-- const BACKOFF_THRESHOLD = 3 (probability.ts line 9). -/
def BACKOFF_THRESHOLD : ℕ := 3

/-- interface ContextCounts (probability.ts lines 11-15): each field optional,
mirroring the possibly-undefined JS fields. Field order: unigram, bigram, trigram. -/
structure ContextCounts where
  unigram : Option ℕ
  bigram : Option ℕ
  trigram : Option ℕ
deriving DecidableEq, Repr

/-- The metadata object (typed `any` in the source; shaped per its uses
`metadata.unigram_counts?.[context]` etc.): three optional count tables. -/
structure MetadataT where
  unigram_counts : Option (List (String × ℕ))
  bigram_counts : Option (List (String × ℕ))
  trigram_counts : Option (List (String × ℕ))

/-- progression[progression.length - 1] (used when length >= 1). -/
def lastToken (progression : List String) : String :=
  progression.getD (progression.length - 1) ""

/-- progression.slice(-n) for n <= length (used under guards length >= n). -/
def lastN (progression : List String) (n : ℕ) : List String :=
  progression.drop (progression.length - n)

/-- tokens.join(','): comma-separated concatenation. -/
def joinComma : List String → String
  | [] => ""
  | [t] => t
  | t :: ts => t ++ "," ++ joinComma ts

/-- progression.slice(-n).join(','). -/
def ctxKey (progression : List String) (n : ℕ) : String :=
  joinComma (lastN progression n)

/-- metadata.xxx_counts?.[context] || 0 . -/
def countLookup (table : Option (List (String × ℕ))) (context : String) : ℕ :=
  (table.bind (fun t => List.lookup context t)).getD 0

/-- getContextCounts (probability.ts lines 20-47). -/
def getContextCounts (progression : List String) (metadata : Option MetadataT) :
    ContextCounts :=
  match metadata with
  | none => ⟨none, none, none⟩
  | some m =>
    ⟨if 1 ≤ progression.length then
        some (countLookup m.unigram_counts (lastToken progression))
      else none,
     if 2 ≤ progression.length then
        some (countLookup m.bigram_counts (ctxKey progression 2))
      else none,
     if 3 ≤ progression.length then
        some (countLookup m.trigram_counts (ctxKey progression 3))
      else none⟩

/-- The first backoff step of adjustWeights (probability.ts lines 60-67):
if the trigram context is weak or missing, halve lambda3 and redistribute
60% of the removed amount to lambda2 and 40% to lambda1. -/
def applyTrigramBackoff (w : InterpolationWeights) (c : ContextCounts) :
    InterpolationWeights :=
  let weak := match c.trigram with
    | none => true
    | some n => n < BACKOFF_THRESHOLD
  if weak then
    let reduction := w.lambda3 * 0.5
    ⟨w.lambda3 - reduction, w.lambda2 + reduction * 0.6, w.lambda1 + reduction * 0.4⟩
  else w

/-- The second backoff step of adjustWeights (probability.ts lines 69-74):
if the bigram context is weak or missing, halve lambda2 and give all of the
removed amount to lambda1. -/
def applyBigramBackoff (w : InterpolationWeights) (c : ContextCounts) :
    InterpolationWeights :=
  let weak := match c.bigram with
    | none => true
    | some n => n < BACKOFF_THRESHOLD
  if weak then
    let reduction := w.lambda2 * 0.5
    ⟨w.lambda3, w.lambda2 - reduction, w.lambda1 + reduction⟩
  else w

/-- The final step of adjustWeights (probability.ts lines 76-82): divide by
the total when it is positive, otherwise leave the triple unchanged. -/
def normalizeWeights (w : InterpolationWeights) : InterpolationWeights :=
  let total := w.lambda1 + w.lambda2 + w.lambda3
  if total > 0 then
    ⟨w.lambda3 / total, w.lambda2 / total, w.lambda1 / total⟩
  else w

/-- adjustWeights (probability.ts lines 52-85), the composition of the two
sequential backoff steps followed by the normalization step. -/
def adjustWeights (weights : InterpolationWeights) (contextCounts : ContextCounts) :
    InterpolationWeights :=
  normalizeWeights (applyBigramBackoff (applyTrigramBackoff weights contextCounts) contextCounts)

/-- getModelProbabilities (probability.ts lines 90-95): model[context] || {} . -/
def getModelProbabilities (model : NGramModel) (context : String) : Record :=
  (List.lookup context model).getD []

/-- The trigram branch guard (probability.ts line 125). -/
def usesTrigram (progression : List String) (contextCounts : ContextCounts) : Bool :=
  3 ≤ progression.length &&
    match contextCounts.trigram with
    | none => false
    | some n => BACKOFF_THRESHOLD ≤ n

/-- The bigram branch guard (probability.ts line 132). -/
def usesBigram (progression : List String) (contextCounts : ContextCounts) : Bool :=
  2 ≤ progression.length &&
    match contextCounts.bigram with
    | none => false
    | some n => BACKOFF_THRESHOLD ≤ n

/-- The unigram branch guard (probability.ts line 139): only a length check. -/
def usesUnigram (progression : List String) : Bool :=
  1 ≤ progression.length

/-- Add a record's keys to the accumulator in order, skipping keys already
present: Object.keys(probs).forEach(chord => allNextChords.add(chord)) on a
JS Set, which keeps first-insertion order. -/
def addKeys (acc : List String) (r : Record) : List String :=
  (r.map Prod.fst).foldl (fun a k => if k ∈ a then a else a ++ [k]) acc

/-- probs[chord] || 0 . -/
def getVal (r : Record) (chord : String) : ℚ :=
  (List.lookup chord r).getD 0

/-- The interpolated score of one candidate (probability.ts lines 154-161). -/
def blend (w : InterpolationWeights) (trigramProbs bigramProbs unigramProbs : Record)
    (chord : String) : ℚ :=
  w.lambda3 * getVal trigramProbs chord +
  w.lambda2 * getVal bigramProbs chord +
  w.lambda1 * getVal unigramProbs chord

/-- The finalProbs loop (probability.ts lines 151-166): keep each candidate
whose interpolated score is strictly positive. -/
def scoreEntries (w : InterpolationWeights) (trigramProbs bigramProbs unigramProbs : Record)
    (cands : List String) : Record :=
  cands.filterMap (fun chord =>
    let s := blend w trigramProbs bigramProbs unigramProbs chord
    if s > 0 then some (chord, s) else none)

/-- Sum of a record's values: Object.values(r).reduce((sum, p) => sum + p, 0). -/
def totalScore (r : Record) : ℚ :=
  (r.map Prod.snd).sum

/-- The final normalization (probability.ts lines 168-174): divide every value
by the total when the total is positive, else return the record unchanged. -/
def normalizeRecord (r : Record) : Record :=
  let total := totalScore r
  if total > 0 then r.map (fun e => (e.1, e.2 / total)) else r

/-- The tail of computeProbabilities (probability.ts lines 145-176), once the
candidate list and the three selected rows are fixed: empty candidates give
the empty result, otherwise the scored entries are normalized. -/
def computeProbabilitiesOn (cands : List String) (w : InterpolationWeights)
    (trigramProbs bigramProbs unigramProbs : Record) : Record :=
  if cands = [] then []
  else normalizeRecord (scoreEntries w trigramProbs bigramProbs unigramProbs cands)

/-- The candidate union (probability.ts lines 117-143): keys of each consulted
table, added in trigram, bigram, unigram order. -/
def allNextChords (trigramProbs bigramProbs unigramProbs : Record) : List String :=
  addKeys (addKeys (addKeys [] trigramProbs) bigramProbs) unigramProbs

/-- The trigramProbs binding (probability.ts lines 120, 124-129): the trigram
row when the trigram branch guard holds, else the empty record. -/
def selTrigram (progression : List String) (models : Models)
    (contextCounts : ContextCounts) : Record :=
  if usesTrigram progression contextCounts then
    getModelProbabilities models.trigram (ctxKey progression 3)
  else []

/-- The bigramProbs binding (probability.ts lines 121, 131-136). -/
def selBigram (progression : List String) (models : Models)
    (contextCounts : ContextCounts) : Record :=
  if usesBigram progression contextCounts then
    getModelProbabilities models.bigram (ctxKey progression 2)
  else []

/-- The unigramProbs binding (probability.ts lines 122, 138-143). -/
def selUnigram (progression : List String) (models : Models) : Record :=
  if usesUnigram progression then
    getModelProbabilities models.unigram (lastToken progression)
  else []

/-- computeProbabilities (probability.ts lines 100-177). -/
def computeProbabilities (progression : List String) (models : Models)
    (weights : InterpolationWeights) (metadata : Option MetadataT) : Record :=
  if progression.length = 0 then []
  else
    let contextCounts := getContextCounts progression metadata
    let adjustedWeights := adjustWeights weights contextCounts
    let trigramProbs := selTrigram progression models contextCounts
    let bigramProbs := selBigram progression models contextCounts
    let unigramProbs := selUnigram progression models
    computeProbabilitiesOn (allNextChords trigramProbs bigramProbs unigramProbs)
      adjustedWeights trigramProbs bigramProbs unigramProbs

/-! Derived definitions used in the statements below. -/

/-- Sum of the three weights, in the order the source's normalization step
adds them (lambda1 + lambda2 + lambda3). -/
def wTotal (w : InterpolationWeights) : ℚ :=
  w.lambda1 + w.lambda2 + w.lambda3

/-- The two sequential backoff reductions of adjustWeights, before the
normalization step. -/
def reducedWeights (w : InterpolationWeights) (c : ContextCounts) : InterpolationWeights :=
  applyBigramBackoff (applyTrigramBackoff w c) c

/-- Modelled from the spec: the uniform-thirds fallback configuration that
section 4.3 step 2c says the weight adjustment falls back to when the
post-reduction total is 0. No such fallback exists in the source. -/
def uniformThirds : InterpolationWeights :=
  ⟨1/3, 1/3, 1/3⟩

/-- The entries of a record with strictly positive value, in order. -/
def positivePart (r : Record) : Record :=
  r.filter (fun e => decide (0 < e.2))

/-- Scenario A of the spec (section 8): the three model rows relevant to the
progression C, G, Amin. -/
def scenarioAModels : Models :=
  ⟨[("Amin", [("F", 0.22), ("C", 0.18)])],
   [("G,Amin", [("F", 0.35)])],
   [("C,G,Amin", [("F", 0.40), ("C", 0.25), ("Dmin", 0.15), ("Emin", 0.10)])]⟩

/-- Scenario A metadata: trigram context C,G,Amin and bigram context G,Amin
both observed 5 times. -/
def scenarioAMetadata : MetadataT :=
  ⟨none, some [("G,Amin", 5)], some [("C,G,Amin", 5)]⟩

/-! Lemmas about the weight-adjustment step. -/

/-- The two reduction steps each preserve the sum of the three weights. -/
theorem wTotal_reducedWeights (w : InterpolationWeights) (c : ContextCounts) :
    wTotal (reducedWeights w c) = wTotal w := by
  rcases c with ⟨u, b, t⟩
  cases t <;> cases b <;>
    simp only [reducedWeights, applyTrigramBackoff, applyBigramBackoff, wTotal] <;>
    split_ifs <;> ring

/-- The trigram backoff step keeps all three weights strictly positive. -/
theorem applyTrigramBackoff_pos (w : InterpolationWeights) (c : ContextCounts)
    (h1 : 0 < w.lambda1) (h2 : 0 < w.lambda2) (h3 : 0 < w.lambda3) :
    0 < (applyTrigramBackoff w c).lambda1 ∧ 0 < (applyTrigramBackoff w c).lambda2 ∧
      0 < (applyTrigramBackoff w c).lambda3 := by
  rcases c with ⟨u, b, t⟩
  cases t <;> simp only [applyTrigramBackoff] <;> split_ifs <;>
    refine ⟨by norm_num; linarith, by norm_num; linarith, by norm_num; linarith⟩

/-- The bigram backoff step keeps all three weights strictly positive. -/
theorem applyBigramBackoff_pos (w : InterpolationWeights) (c : ContextCounts)
    (h1 : 0 < w.lambda1) (h2 : 0 < w.lambda2) (h3 : 0 < w.lambda3) :
    0 < (applyBigramBackoff w c).lambda1 ∧ 0 < (applyBigramBackoff w c).lambda2 ∧
      0 < (applyBigramBackoff w c).lambda3 := by
  rcases c with ⟨u, b, t⟩
  cases b <;> simp only [applyBigramBackoff] <;> split_ifs <;>
    refine ⟨by norm_num; linarith, by norm_num; linarith, by norm_num; linarith⟩

/-- adjustWeights is the normalization of the two sequential reductions. -/
theorem adjustWeights_eq_normalize_reduced (w : InterpolationWeights) (c : ContextCounts) :
    adjustWeights w c = normalizeWeights (reducedWeights w c) := rfl

/-- C8: for every strictly positive input weight triple and every combination
of context counts, the weights returned by adjustWeights sum to exactly 1. -/
theorem adjustWeights_total_one (w : InterpolationWeights) (c : ContextCounts)
    (h1 : 0 < w.lambda1) (h2 : 0 < w.lambda2) (h3 : 0 < w.lambda3) :
    wTotal (adjustWeights w c) = 1 := by
  obtain ⟨p1, p2, p3⟩ :=
    applyBigramBackoff_pos (applyTrigramBackoff w c) c
      (applyTrigramBackoff_pos w c h1 h2 h3).1
      (applyTrigramBackoff_pos w c h1 h2 h3).2.1
      (applyTrigramBackoff_pos w c h1 h2 h3).2.2
  have hT : 0 < wTotal (reducedWeights w c) := by
    have := wTotal_reducedWeights w c
    unfold wTotal at *
    simp only [reducedWeights] at *
    linarith
  rw [adjustWeights_eq_normalize_reduced]
  set r := reducedWeights w c with hr
  unfold normalizeWeights wTotal
  simp only
  rw [if_pos]
  · simp only
    unfold wTotal at hT
    have hs : r.lambda1 / (r.lambda1 + r.lambda2 + r.lambda3) +
        r.lambda2 / (r.lambda1 + r.lambda2 + r.lambda3) +
        r.lambda3 / (r.lambda1 + r.lambda2 + r.lambda3) =
        (r.lambda1 + r.lambda2 + r.lambda3) / (r.lambda1 + r.lambda2 + r.lambda3) := by
      ring
    rw [hs, div_self (ne_of_gt hT)]
  · unfold wTotal at hT
    exact hT

/-- Witness for C8 at the base weights and a mixed count configuration. -/
theorem adjustWeights_total_one_witness :
    0 < DEFAULT_WEIGHTS.lambda1 ∧
      wTotal (adjustWeights DEFAULT_WEIGHTS ⟨some 0, some 5, some 0⟩) = 1 :=
  ⟨by norm_num [DEFAULT_WEIGHTS],
   adjustWeights_total_one DEFAULT_WEIGHTS ⟨some 0, some 5, some 0⟩
     (by norm_num [DEFAULT_WEIGHTS]) (by norm_num [DEFAULT_WEIGHTS])
     (by norm_num [DEFAULT_WEIGHTS])⟩

/-- C4 counterexample: at the all-zero weight triple the post-reduction total
is 0, and adjustWeights returns the all-zero triple unchanged instead of the
uniform-thirds fallback the claim describes. -/
theorem zero_total_counterexample :
    wTotal (reducedWeights ⟨0, 0, 0⟩ ⟨none, none, none⟩) = 0 ∧
    adjustWeights ⟨0, 0, 0⟩ ⟨none, none, none⟩ = ⟨0, 0, 0⟩ ∧
    adjustWeights ⟨0, 0, 0⟩ ⟨none, none, none⟩ ≠ uniformThirds := by
  refine ⟨?_, ?_, ?_⟩
  · norm_num [wTotal, reducedWeights, applyTrigramBackoff, applyBigramBackoff,
      BACKOFF_THRESHOLD]
  · norm_num [adjustWeights, normalizeWeights, applyTrigramBackoff, applyBigramBackoff,
      BACKOFF_THRESHOLD]
  · norm_num [adjustWeights, normalizeWeights, applyTrigramBackoff, applyBigramBackoff,
      BACKOFF_THRESHOLD, uniformThirds, InterpolationWeights.mk.injEq]

/-- C4 (amended): after the two backoff reductions the triple is renormalized
by dividing by its total when that total is positive; when the total is 0 the
reduced triple is returned unchanged, and in particular the result is never
the uniform-thirds configuration in that case. -/
theorem zero_total_weights_unchanged (w : InterpolationWeights) (c : ContextCounts) :
    (0 < wTotal (reducedWeights w c) →
      adjustWeights w c =
        ⟨(reducedWeights w c).lambda3 / wTotal (reducedWeights w c),
         (reducedWeights w c).lambda2 / wTotal (reducedWeights w c),
         (reducedWeights w c).lambda1 / wTotal (reducedWeights w c)⟩) ∧
    (wTotal (reducedWeights w c) = 0 →
      adjustWeights w c = reducedWeights w c ∧ adjustWeights w c ≠ uniformThirds) := by
  constructor
  · intro h
    rw [adjustWeights_eq_normalize_reduced]
    unfold normalizeWeights wTotal
    simp only
    rw [if_pos]
    exact h
  · intro h
    have hres : adjustWeights w c = reducedWeights w c := by
      rw [adjustWeights_eq_normalize_reduced]
      unfold normalizeWeights
      simp only
      rw [if_neg]
      unfold wTotal at h
      rw [h]
      exact lt_irrefl 0
    refine ⟨hres, ?_⟩
    rw [hres]
    intro heq
    have h1 : wTotal (reducedWeights w c) = wTotal uniformThirds := by rw [heq]
    rw [h] at h1
    norm_num [wTotal, uniformThirds] at h1

/-- Witness for the amended C4, covering both the positive-total branch (at
the base weights) and the zero-total branch (at the all-zero triple). -/
theorem zero_total_weights_unchanged_witness :
    (adjustWeights DEFAULT_WEIGHTS ⟨none, none, none⟩ =
      ⟨(reducedWeights DEFAULT_WEIGHTS ⟨none, none, none⟩).lambda3 /
          wTotal (reducedWeights DEFAULT_WEIGHTS ⟨none, none, none⟩),
       (reducedWeights DEFAULT_WEIGHTS ⟨none, none, none⟩).lambda2 /
          wTotal (reducedWeights DEFAULT_WEIGHTS ⟨none, none, none⟩),
       (reducedWeights DEFAULT_WEIGHTS ⟨none, none, none⟩).lambda1 /
          wTotal (reducedWeights DEFAULT_WEIGHTS ⟨none, none, none⟩)⟩) ∧
    (adjustWeights ⟨0, 0, 0⟩ ⟨none, none, none⟩ = reducedWeights ⟨0, 0, 0⟩ ⟨none, none, none⟩ ∧
      adjustWeights ⟨0, 0, 0⟩ ⟨none, none, none⟩ ≠ uniformThirds) :=
  ⟨(zero_total_weights_unchanged DEFAULT_WEIGHTS ⟨none, none, none⟩).1
      (by norm_num [wTotal, reducedWeights, applyTrigramBackoff, applyBigramBackoff,
        BACKOFF_THRESHOLD, DEFAULT_WEIGHTS]),
   (zero_total_weights_unchanged ⟨0, 0, 0⟩ ⟨none, none, none⟩).2
      (by norm_num [wTotal, reducedWeights, applyTrigramBackoff, applyBigramBackoff,
        BACKOFF_THRESHOLD])⟩

/-- C2: with base weights, a trigram context count of 0 and a bigram context
count of at least 3, adjustWeights returns exactly lambda3 = 0.30,
lambda2 = 0.48, lambda1 = 0.22 summing to 1, and the trigram branch guard is
false for every progression, so the trigram table joins neither the weighting
nor the candidate union. -/
theorem scenarioB_soft_backoff (c : ℕ) (u : Option ℕ) (p : List String) (h : 3 ≤ c) :
    adjustWeights DEFAULT_WEIGHTS ⟨u, some c, some 0⟩ = ⟨0.30, 0.48, 0.22⟩ ∧
    wTotal (adjustWeights DEFAULT_WEIGHTS ⟨u, some c, some 0⟩) = 1 ∧
    usesTrigram p ⟨u, some c, some 0⟩ = false := by
  have hc : ¬ (c < 3) := by omega
  refine ⟨?_, ?_, ?_⟩
  · norm_num [adjustWeights, normalizeWeights, reducedWeights, applyTrigramBackoff,
      applyBigramBackoff, BACKOFF_THRESHOLD, DEFAULT_WEIGHTS, hc,
      InterpolationWeights.mk.injEq]
  · norm_num [adjustWeights, normalizeWeights, reducedWeights, applyTrigramBackoff,
      applyBigramBackoff, BACKOFF_THRESHOLD, DEFAULT_WEIGHTS, hc, wTotal]
  · simp [usesTrigram, BACKOFF_THRESHOLD]

/-- Witness for C2 at bigram count 5 and the Scenario B progression. -/
theorem scenarioB_soft_backoff_witness :
    adjustWeights DEFAULT_WEIGHTS ⟨none, some 5, some 0⟩ = ⟨0.30, 0.48, 0.22⟩ ∧
    wTotal (adjustWeights DEFAULT_WEIGHTS ⟨none, some 5, some 0⟩) = 1 ∧
    usesTrigram ["C", "G", "Amin"] ⟨none, some 5, some 0⟩ = false :=
  scenarioB_soft_backoff 5 none ["C", "G", "Amin"] (by norm_num)

/-- C5: for Scenario A the adjusted weights equal the base weights unchanged,
and the pre-renormalization blended score of the candidate F over the three
selected rows is exactly 0.367. -/
theorem scenarioA_weights_and_blend :
    adjustWeights DEFAULT_WEIGHTS
        (getContextCounts ["C", "G", "Amin"] (some scenarioAMetadata)) = DEFAULT_WEIGHTS ∧
    blend DEFAULT_WEIGHTS
        (getModelProbabilities scenarioAModels.trigram (ctxKey ["C", "G", "Amin"] 3))
        (getModelProbabilities scenarioAModels.bigram (ctxKey ["C", "G", "Amin"] 2))
        (getModelProbabilities scenarioAModels.unigram (lastToken ["C", "G", "Amin"]))
        "F" = 0.367 := by
  constructor
  · simp [adjustWeights, getContextCounts, countLookup, ctxKey, lastN, lastToken, joinComma,
      applyTrigramBackoff, applyBigramBackoff, normalizeWeights, BACKOFF_THRESHOLD,
      DEFAULT_WEIGHTS, List.lookup, scenarioAMetadata, reducedWeights]
    norm_num
  · simp [blend, getModelProbabilities, getVal, ctxKey, lastN, lastToken, joinComma,
      scenarioAModels, List.lookup, DEFAULT_WEIGHTS]
    norm_num

/-- C6: the weakness boundary is exclusive at 3. A count of exactly 3 leaves
both backoff steps inert and passes both inclusion guards, while a count of 2
triggers the reduction and fails the guards. -/
theorem backoff_threshold_boundary :
    (∀ (w : InterpolationWeights) (u b : Option ℕ), applyTrigramBackoff w ⟨u, b, some 3⟩ = w) ∧
    applyTrigramBackoff DEFAULT_WEIGHTS ⟨none, none, some 2⟩ ≠ DEFAULT_WEIGHTS ∧
    (∀ (w : InterpolationWeights) (u t : Option ℕ), applyBigramBackoff w ⟨u, some 3, t⟩ = w) ∧
    applyBigramBackoff DEFAULT_WEIGHTS ⟨none, some 2, none⟩ ≠ DEFAULT_WEIGHTS ∧
    usesTrigram ["C", "G", "Amin"] ⟨none, none, some 3⟩ = true ∧
    usesTrigram ["C", "G", "Amin"] ⟨none, none, some 2⟩ = false ∧
    usesBigram ["G", "Amin"] ⟨none, some 3, none⟩ = true ∧
    usesBigram ["G", "Amin"] ⟨none, some 2, none⟩ = false := by
  refine ⟨?_, ?_, ?_, ?_, ?_, ?_, ?_, ?_⟩
  · intro w u b; simp [applyTrigramBackoff, BACKOFF_THRESHOLD]
  · norm_num [applyTrigramBackoff, BACKOFF_THRESHOLD, DEFAULT_WEIGHTS,
      InterpolationWeights.mk.injEq]
  · intro w u t; simp [applyBigramBackoff, BACKOFF_THRESHOLD]
  · norm_num [applyBigramBackoff, BACKOFF_THRESHOLD, DEFAULT_WEIGHTS,
      InterpolationWeights.mk.injEq]
  · simp [usesTrigram, BACKOFF_THRESHOLD]
  · simp [usesTrigram, BACKOFF_THRESHOLD]
  · simp [usesBigram, BACKOFF_THRESHOLD]
  · simp [usesBigram, BACKOFF_THRESHOLD]

/-! Lemmas about the candidate set and the final normalization. -/

/-- Membership in the Set-style key accumulation. -/
theorem mem_foldl_addKey (ks : List String) (acc : List String) (k : String) :
    (k ∈ ks.foldl (fun a x => if x ∈ a then a else a ++ [x]) acc) ↔ k ∈ acc ∨ k ∈ ks := by
  induction ks generalizing acc with
  | nil => simp
  | cons x xs ih =>
    simp only [List.foldl_cons]
    by_cases hx : x ∈ acc
    · rw [if_pos hx, ih]
      simp only [List.mem_cons]
      constructor
      · rintro (h | h)
        · exact Or.inl h
        · exact Or.inr (Or.inr h)
      · rintro (h | h | h)
        · exact Or.inl h
        · exact Or.inl (h ▸ hx)
        · exact Or.inr h
    · rw [if_neg hx, ih]
      simp only [List.mem_append, List.mem_singleton, List.mem_cons]
      tauto

/-- A key is in the accumulated candidates iff it was there already or is a
key of the added record. -/
theorem mem_addKeys (acc : List String) (r : Record) (k : String) :
    k ∈ addKeys acc r ↔ k ∈ acc ∨ k ∈ r.map Prod.fst := by
  unfold addKeys
  exact mem_foldl_addKey (r.map Prod.fst) acc k

/-- Every entry the finalProbs loop keeps has a strictly positive value. -/
theorem mem_scoreEntries_pos (w : InterpolationWeights) (t b u : Record)
    (cands : List String) : ∀ e ∈ scoreEntries w t b u cands, 0 < e.2 := by
  intro e he
  simp only [scoreEntries, List.mem_filterMap] at he
  obtain ⟨c, hc, hfc⟩ := he
  by_cases h : 0 < blend w t b u c
  · rw [if_pos h] at hfc
    cases hfc
    exact h
  · rw [if_neg h] at hfc
    cases hfc

/-- A nonempty record of positive values has positive total. -/
theorem totalScore_pos (r : Record) (h : ∀ e ∈ r, 0 < e.2) (hne : r ≠ []) :
    0 < totalScore r := by
  unfold totalScore
  apply List.sum_pos
  · intro x hx
    simp only [List.mem_map] at hx
    obtain ⟨e, he, rfl⟩ := hx
    exact h e he
  · simp [hne]

/-- Dividing every value divides the total. -/
theorem totalScore_map_div (r : Record) (t : ℚ) :
    totalScore (r.map (fun e => (e.1, e.2 / t))) = totalScore r / t := by
  unfold totalScore
  induction r with
  | nil => simp
  | cons e rest ih =>
    simp only [List.map_cons, List.sum_cons, add_div, ih]

/-- Normalizing the empty record gives the empty record. -/
theorem normalizeRecord_nil : normalizeRecord [] = [] := by
  simp [normalizeRecord, totalScore]

/-- If the kept entries sum to 0 there are no kept entries at all. -/
theorem scoreEntries_eq_nil_of_total_zero (w : InterpolationWeights) (t b u : Record)
    (cands : List String) (h : totalScore (scoreEntries w t b u cands) = 0) :
    scoreEntries w t b u cands = [] := by
  by_contra hne
  have := totalScore_pos _ (mem_scoreEntries_pos w t b u cands) hne
  rw [h] at this
  exact lt_irrefl 0 this

/-- On any candidate list, the tail of computeProbabilities returns either
the empty record or a record of positive values summing to exactly 1. -/
theorem computeProbabilitiesOn_spec (cands : List String) (w : InterpolationWeights)
    (t b u : Record) :
    computeProbabilitiesOn cands w t b u = [] ∨
      ((∀ e ∈ computeProbabilitiesOn cands w t b u, 0 < e.2) ∧
        totalScore (computeProbabilitiesOn cands w t b u) = 1) := by
  by_cases hc : cands = []
  · left
    simp [computeProbabilitiesOn, hc]
  · rw [computeProbabilitiesOn, if_neg hc]
    have hpos : ∀ e ∈ scoreEntries w t b u cands, 0 < e.2 :=
      mem_scoreEntries_pos w t b u cands
    by_cases hrn : scoreEntries w t b u cands = []
    · left
      rw [hrn, normalizeRecord_nil]
    · right
      have ht : 0 < totalScore (scoreEntries w t b u cands) :=
        totalScore_pos _ hpos hrn
      unfold normalizeRecord
      simp only
      rw [if_pos ht]
      constructor
      · intro e he
        simp only [List.mem_map] at he
        obtain ⟨e', he', rfl⟩ := he
        exact div_pos (hpos e' he') ht
      · rw [totalScore_map_div, div_self (ne_of_gt ht)]

/-- On a nonempty progression computeProbabilities is the candidate-list tail
applied to the three selected rows and the adjusted weights. -/
theorem computeProbabilities_eq (p : List String) (models : Models)
    (w : InterpolationWeights) (md : Option MetadataT) (hp : p.length ≠ 0) :
    computeProbabilities p models w md =
      computeProbabilitiesOn
        (allNextChords (selTrigram p models (getContextCounts p md))
          (selBigram p models (getContextCounts p md)) (selUnigram p models))
        (adjustWeights w (getContextCounts p md))
        (selTrigram p models (getContextCounts p md))
        (selBigram p models (getContextCounts p md)) (selUnigram p models) := by
  rw [computeProbabilities, if_neg hp]

/-- C3: for every input, the mapping returned by computeProbabilities is
either empty or contains only strictly positive values summing to exactly 1;
zero-score candidates never appear. -/
theorem result_positive_sums_one (p : List String) (models : Models)
    (w : InterpolationWeights) (md : Option MetadataT) :
    computeProbabilities p models w md = [] ∨
      ((∀ e ∈ computeProbabilities p models w md, 0 < e.2) ∧
        totalScore (computeProbabilities p models w md) = 1) := by
  by_cases hp : p.length = 0
  · left
    rw [computeProbabilities, if_pos hp]
  · rw [computeProbabilities_eq p models w md hp]
    exact computeProbabilitiesOn_spec _ _ _ _ _

/-- C7: the empty progression yields the empty mapping, and an empty candidate
set or a zero total blended weight also yields the empty mapping, as an
ordinary result rather than an error. -/
theorem no_prediction_empty_result :
    (∀ (models : Models) (w : InterpolationWeights) (md : Option MetadataT),
       computeProbabilities [] models w md = []) ∧
    (∀ (w : InterpolationWeights) (t b u : Record), computeProbabilitiesOn [] w t b u = []) ∧
    (∀ (cands : List String) (w : InterpolationWeights) (t b u : Record),
       totalScore (scoreEntries w t b u cands) = 0 →
         computeProbabilitiesOn cands w t b u = []) := by
  refine ⟨?_, ?_, ?_⟩
  · intro models w md
    rw [computeProbabilities]
    simp
  · intro w t b u
    simp [computeProbabilitiesOn]
  · intro cands w t b u h
    by_cases hc : cands = []
    · simp [computeProbabilitiesOn, hc]
    · rw [computeProbabilitiesOn, if_neg hc,
        scoreEntries_eq_nil_of_total_zero w t b u cands h, normalizeRecord_nil]

/-- Witness for C7: the empty progression, and a candidate list whose every
blended score is 0 because all three rows are empty. -/
theorem no_prediction_empty_result_witness :
    computeProbabilities [] scenarioAModels DEFAULT_WEIGHTS none = [] ∧
    computeProbabilitiesOn ["X"] DEFAULT_WEIGHTS [] [] [] = [] :=
  ⟨no_prediction_empty_result.1 scenarioAModels DEFAULT_WEIGHTS none,
   no_prediction_empty_result.2.2 ["X"] DEFAULT_WEIGHTS [] [] []
     (by norm_num [scoreEntries, blend, getVal, totalScore, DEFAULT_WEIGHTS, List.lookup])⟩

/-- C1: with metadata supplied, the trigram branch guard holds exactly when the
progression length is at least 3 and the trigram context count is at least 3,
the bigram guard exactly when the length is at least 2 and the bigram count is
at least 3, while the unigram guard depends only on the length being at least 1
and never on a count; moreover every key of the selected unigram row always
enters the candidate union. -/
theorem order_inclusion_filter (p : List String) (m : MetadataT) (models : Models) :
    usesTrigram p (getContextCounts p (some m)) =
      (decide (3 ≤ p.length) &&
        decide (BACKOFF_THRESHOLD ≤ countLookup m.trigram_counts (ctxKey p 3))) ∧
    usesBigram p (getContextCounts p (some m)) =
      (decide (2 ≤ p.length) &&
        decide (BACKOFF_THRESHOLD ≤ countLookup m.bigram_counts (ctxKey p 2))) ∧
    usesUnigram p = decide (1 ≤ p.length) ∧
    (∀ (tri big : Record) (k : String),
      k ∈ (selUnigram p models).map Prod.fst →
        k ∈ allNextChords tri big (selUnigram p models)) := by
  refine ⟨?_, ?_, rfl, ?_⟩
  · unfold usesTrigram getContextCounts
    by_cases h3 : 3 ≤ p.length
    · simp [h3]
    · simp [h3]
  · unfold usesBigram getContextCounts
    by_cases h2 : 2 ≤ p.length
    · simp [h2]
    · simp [h2]
  · intro tri big k hk
    unfold allNextChords
    rw [mem_addKeys]
    right
    exact hk

/-- Witness for C1: the key F of the unigram row for Amin reaches the
candidate union even with both higher-order rows empty. -/
theorem order_inclusion_filter_witness :
    "F" ∈ allNextChords [] [] (selUnigram ["Amin"] scenarioAModels) :=
  (order_inclusion_filter ["Amin"] ⟨none, none, none⟩ scenarioAModels).2.2.2 [] [] "F"
    (by simp [selUnigram, usesUnigram, getModelProbabilities, lastToken, scenarioAModels,
      List.lookup])

/-! Lemmas about record lookups, used for the metadata-free mode and the
iteration-order independence results. -/

/-- Looking a key up in the empty record gives 0. -/
theorem getVal_nil (c : String) : getVal [] c = 0 := rfl

/-- Looking the head key up gives the head value. -/
theorem getVal_cons_self (k : String) (v : ℚ) (r : Record) : getVal ((k, v) :: r) k = v := by
  simp [getVal, List.lookup]

/-- Looking a different key up skips the head entry. -/
theorem getVal_cons_ne (k c : String) (v : ℚ) (r : Record) (h : c ≠ k) :
    getVal ((k, v) :: r) c = getVal r c := by
  have hbeq : (c == k) = false := by simpa using h
  simp [getVal, List.lookup, hbeq]

/-- With empty trigram and bigram rows the blend reduces to the unigram term. -/
theorem blend_unigram (w : InterpolationWeights) (u : Record) (c : String) :
    blend w [] [] u c = w.lambda1 * getVal u c := by
  simp [blend, getVal_nil]

/-- filterMap only evaluates its function on members of the list. -/
theorem filterMap_congr_of_mem {α β : Type} (f g : α → Option β) (l : List α)
    (h : ∀ a ∈ l, f a = g a) : l.filterMap f = l.filterMap g := by
  induction l with
  | nil => rfl
  | cons x xs ih =>
    rw [List.filterMap_cons, List.filterMap_cons, h x (List.mem_cons_self x xs),
      ih (fun a ha => h a (List.mem_cons_of_mem x ha))]

/-- Set-style accumulation of fresh distinct keys appends them in order. -/
theorem foldl_addKey_of_nodup (ks : List String) (acc : List String)
    (h : (acc ++ ks).Nodup) :
    ks.foldl (fun a x => if x ∈ a then a else a ++ [x]) acc = acc ++ ks := by
  induction ks generalizing acc with
  | nil => simp
  | cons x xs ih =>
    have hx : x ∉ acc := by
      intro hmem
      rw [List.nodup_append] at h
      exact h.2.2 hmem (List.mem_cons_self x xs)
    rw [List.foldl_cons, if_neg hx]
    have h2 : ((acc ++ [x]) ++ xs).Nodup := by
      rw [List.append_assoc]
      simpa using h
    rw [ih (acc ++ [x]) h2]
    simp

/-- Accumulating the keys of a duplicate-free record from an empty candidate
set yields exactly those keys in order. -/
theorem addKeys_nil_of_nodup (r : Record) (h : (r.map Prod.fst).Nodup) :
    addKeys [] r = r.map Prod.fst := by
  unfold addKeys
  simpa using foldl_addKey_of_nodup (r.map Prod.fst) [] (by simpa using h)

/-- With empty trigram and bigram rows, the finalProbs loop over the unigram
row keys keeps the positive entries of that row scaled by lambda1. -/
theorem scoreEntries_unigram (w : InterpolationWeights) (hl : 0 < w.lambda1) (row : Record)
    (h : (row.map Prod.fst).Nodup) :
    scoreEntries w [] [] row (row.map Prod.fst) =
      (positivePart row).map (fun e => (e.1, w.lambda1 * e.2)) := by
  induction row with
  | nil => rfl
  | cons e rest ih =>
    obtain ⟨k, v⟩ := e
    rw [List.map_cons] at h
    have hk : k ∉ rest.map Prod.fst := (List.nodup_cons.mp h).1
    have hnd : (rest.map Prod.fst).Nodup := (List.nodup_cons.mp h).2
    have hblend : ∀ c ∈ rest.map Prod.fst,
        blend w [] [] ((k, v) :: rest) c = blend w [] [] rest c := by
      intro c hc
      have hck : c ≠ k := fun hh => hk (hh ▸ hc)
      unfold blend
      rw [getVal_cons_ne k c v rest hck]
    have hcong : scoreEntries w [] [] ((k, v) :: rest) (rest.map Prod.fst) =
        scoreEntries w [] [] rest (rest.map Prod.fst) := by
      unfold scoreEntries
      apply filterMap_congr_of_mem
      intro c hc
      simp only [hblend c hc]
    have hhead : blend w [] [] ((k, v) :: rest) k = w.lambda1 * v := by
      rw [blend_unigram, getVal_cons_self]
    rw [List.map_cons]
    unfold scoreEntries
    rw [List.filterMap_cons]
    simp only [hhead]
    by_cases hv : 0 < v
    · rw [if_pos (mul_pos hl hv)]
      have hrest : List.filterMap
          (fun chord =>
            let s := blend w [] [] ((k, v) :: rest) chord
            if s > 0 then some (chord, s) else none) (rest.map Prod.fst) =
          (positivePart rest).map (fun e => (e.1, w.lambda1 * e.2)) := by
        rw [show List.filterMap
            (fun chord =>
              let s := blend w [] [] ((k, v) :: rest) chord
              if s > 0 then some (chord, s) else none) (rest.map Prod.fst) =
            scoreEntries w [] [] ((k, v) :: rest) (rest.map Prod.fst) from rfl, hcong]
        exact ih hnd
      rw [hrest]
      simp [positivePart, hv]
    · have hnv : ¬ 0 < w.lambda1 * v := by
        apply not_lt.mpr
        exact mul_nonpos_of_nonneg_of_nonpos (le_of_lt hl) (le_of_not_lt hv)
      rw [if_neg hnv]
      have hrest : List.filterMap
          (fun chord =>
            let s := blend w [] [] ((k, v) :: rest) chord
            if s > 0 then some (chord, s) else none) (rest.map Prod.fst) =
          (positivePart rest).map (fun e => (e.1, w.lambda1 * e.2)) := by
        rw [show List.filterMap
            (fun chord =>
              let s := blend w [] [] ((k, v) :: rest) chord
              if s > 0 then some (chord, s) else none) (rest.map Prod.fst) =
            scoreEntries w [] [] ((k, v) :: rest) (rest.map Prod.fst) from rfl, hcong]
        exact ih hnd
      rw [hrest]
      simp [positivePart, hv]

/-- Scaling every value scales the total. -/
theorem totalScore_map_scale (a : ℚ) (r : Record) :
    totalScore (r.map (fun e => (e.1, a * e.2))) = a * totalScore r := by
  unfold totalScore
  induction r with
  | nil => simp
  | cons e rest ih => simp only [List.map_cons, List.sum_cons, mul_add, ih]

/-- Scaling a record of positive values by a positive factor does not change
its normalization. -/
theorem normalizeRecord_scale (a : ℚ) (ha : 0 < a) (r : Record)
    (hpos : ∀ e ∈ r, 0 < e.2) :
    normalizeRecord (r.map (fun e => (e.1, a * e.2))) = normalizeRecord r := by
  by_cases hr : r = []
  · subst hr
    rfl
  · have ht : 0 < totalScore r := totalScore_pos r hpos hr
    unfold normalizeRecord
    simp only
    rw [totalScore_map_scale, if_pos (mul_pos ha ht), if_pos ht, List.map_map]
    have hfun : ((fun e : String × ℚ => (e.1, e.2 / (a * totalScore r))) ∘
        (fun e : String × ℚ => (e.1, a * e.2))) =
        (fun e : String × ℚ => (e.1, e.2 / totalScore r)) := by
      funext e
      simp only [Function.comp]
      rw [mul_div_mul_left e.2 (totalScore r) (ne_of_gt ha)]
    rw [hfun]

/-- The positive part keeps only positive values. -/
theorem mem_positivePart_pos (r : Record) : ∀ e ∈ positivePart r, 0 < e.2 := by
  intro e he
  simp only [positivePart, List.mem_filter, decide_eq_true_eq] at he
  exact he.2

/-- With no metadata both backoff steps fire, and the adjusted unigram weight
stays strictly positive whenever the input unigram weight is positive and the
other two are nonnegative. -/
theorem adjusted_lambda1_pos (w : InterpolationWeights)
    (h1 : 0 < w.lambda1) (h2 : 0 ≤ w.lambda2) (h3 : 0 ≤ w.lambda3) :
    0 < (adjustWeights w ⟨none, none, none⟩).lambda1 := by
  have hred : 0 < (reducedWeights w ⟨none, none, none⟩).lambda1 ∧
      0 ≤ (reducedWeights w ⟨none, none, none⟩).lambda2 ∧
      0 ≤ (reducedWeights w ⟨none, none, none⟩).lambda3 := by
    simp only [reducedWeights, applyTrigramBackoff, applyBigramBackoff, BACKOFF_THRESHOLD]
    norm_num
    refine ⟨by linarith, by linarith, by linarith⟩
  have hT : 0 < wTotal (reducedWeights w ⟨none, none, none⟩) := by
    rw [wTotal_reducedWeights]
    unfold wTotal
    linarith
  rw [adjustWeights_eq_normalize_reduced]
  unfold normalizeWeights
  simp only
  rw [if_pos (by unfold wTotal at hT; exact hT)]
  exact div_pos hred.1 (by unfold wTotal at hT; exact hT)

/-- C9: with the metadata argument omitted, the trigram and bigram branch
guards are false for every progression, so those tables are never consulted,
and for a nonempty progression the result is the unigram row of the last
token restricted to its positive entries and renormalized (stated for any
weights with positive lambda1 and nonnegative lambda2, lambda3, which the
application's default weights satisfy; the unigram row's keys are distinct as
in any JS record). -/
theorem no_metadata_unigram_only (p : List String) (models : Models)
    (w : InterpolationWeights) (hne : p ≠ []) (h1 : 0 < w.lambda1)
    (h2 : 0 ≤ w.lambda2) (h3 : 0 ≤ w.lambda3)
    (hnd : ((getModelProbabilities models.unigram (lastToken p)).map Prod.fst).Nodup) :
    usesTrigram p (getContextCounts p none) = false ∧
    usesBigram p (getContextCounts p none) = false ∧
    computeProbabilities p models w none =
      normalizeRecord (positivePart (getModelProbabilities models.unigram (lastToken p))) := by
  have hlen : p.length ≠ 0 := by simpa using hne
  have htri : usesTrigram p (getContextCounts p none) = false := by
    simp [usesTrigram, getContextCounts]
  have hbig : usesBigram p (getContextCounts p none) = false := by
    simp [usesBigram, getContextCounts]
  refine ⟨htri, hbig, ?_⟩
  rw [computeProbabilities_eq p models w none hlen]
  have hsel3 : selTrigram p models (getContextCounts p none) = [] := by
    simp [selTrigram, htri]
  have hsel2 : selBigram p models (getContextCounts p none) = [] := by
    simp [selBigram, hbig]
  have hselu : selUnigram p models = getModelProbabilities models.unigram (lastToken p) := by
    have hu : usesUnigram p = true := by
      simp [usesUnigram]
      omega
    simp [selUnigram, hu]
  rw [hsel3, hsel2, hselu]
  set row := getModelProbabilities models.unigram (lastToken p) with hrow
  have hcands : allNextChords [] [] row = row.map Prod.fst := by
    rw [show allNextChords [] [] row = addKeys [] row from rfl, addKeys_nil_of_nodup row hnd]
  rw [hcands]
  have hawpos : 0 < (adjustWeights w (getContextCounts p none)).lambda1 :=
    adjusted_lambda1_pos w h1 h2 h3
  by_cases hr : row = []
  · rw [hr]
    simp [computeProbabilitiesOn, positivePart, normalizeRecord_nil]
  · have hcne : row.map Prod.fst ≠ [] := by simpa using hr
    rw [computeProbabilitiesOn, if_neg hcne]
    rw [scoreEntries_unigram (adjustWeights w (getContextCounts p none)) hawpos row hnd]
    exact normalizeRecord_scale _ hawpos (positivePart row) (mem_positivePart_pos row)

/-- Witness for C9 at the application's own call shape: default weights, no
metadata, progression of one chord. -/
theorem no_metadata_unigram_only_witness :
    usesTrigram ["Amin"] (getContextCounts ["Amin"] none) = false ∧
    usesBigram ["Amin"] (getContextCounts ["Amin"] none) = false ∧
    computeProbabilities ["Amin"] scenarioAModels DEFAULT_WEIGHTS none =
      normalizeRecord (positivePart
        (getModelProbabilities scenarioAModels.unigram (lastToken ["Amin"]))) :=
  no_metadata_unigram_only ["Amin"] scenarioAModels DEFAULT_WEIGHTS (by simp)
    (by norm_num [DEFAULT_WEIGHTS]) (by norm_num [DEFAULT_WEIGHTS])
    (by norm_num [DEFAULT_WEIGHTS])
    (by simp [getModelProbabilities, lastToken, scenarioAModels, List.lookup])

/-- Dividing through a record commutes with lookup. -/
theorem lookup_map_div (r : Record) (t : ℚ) (chord : String) :
    List.lookup chord (r.map (fun e => (e.1, e.2 / t))) =
      (List.lookup chord r).map (fun v => v / t) := by
  induction r with
  | nil => rfl
  | cons e rest ih =>
    obtain ⟨k, v⟩ := e
    simp only [List.map_cons, List.lookup]
    cases h : chord == k <;> simp [h, ih]

/-- Looking a chord up among the kept entries depends only on membership in
the candidate list and the chord's own blended score, never on list order. -/
theorem lookup_scoreEntries (w : InterpolationWeights) (t b u : Record)
    (cands : List String) (chord : String) :
    List.lookup chord (scoreEntries w t b u cands) =
      if chord ∈ cands ∧ 0 < blend w t b u chord then some (blend w t b u chord)
      else none := by
  induction cands with
  | nil => simp [scoreEntries]
  | cons x cs ih =>
    unfold scoreEntries at ih ⊢
    rw [List.filterMap_cons]
    by_cases hb : 0 < blend w t b u x
    · simp only [if_pos hb]
      by_cases hx : chord = x
      · subst hx
        simp [List.lookup, List.mem_cons, hb]
      · have hbeq : (chord == x) = false := by simpa using hx
        simp only [List.lookup, hbeq, ih]
        simp [List.mem_cons, hx]
    · simp only [if_neg hb, ih]
      by_cases hx : chord = x
      · subst hx
        simp [List.mem_cons, hb]
      · simp [List.mem_cons, hx]

/-- The total of the kept entries is invariant under permutation of the
candidate list. -/
theorem totalScore_scoreEntries_perm (w : InterpolationWeights) (t b u : Record)
    (l1 l2 : List String) (h : l1.Perm l2) :
    totalScore (scoreEntries w t b u l1) = totalScore (scoreEntries w t b u l2) := by
  unfold totalScore scoreEntries
  exact ((h.filterMap _).map _).sum_eq

/-- C10: the distribution computed by the tail of computeProbabilities is the
same function of chords for any two candidate lists that are permutations of
each other, so the result does not depend on the iteration order over the
candidate set; with fixed inputs the pure function is trivially reproducible. -/
theorem computeProbabilitiesOn_perm_invariant (w : InterpolationWeights)
    (tri big uni : Record) (l1 l2 : List String) (h : l1.Perm l2) (chord : String) :
    List.lookup chord (computeProbabilitiesOn l1 w tri big uni) =
      List.lookup chord (computeProbabilitiesOn l2 w tri big uni) := by
  by_cases h1 : l1 = []
  · have h2 : l2 = [] := by
      subst h1
      exact h.nil_eq.symm
    rw [h1, h2]
  · have h2 : l2 ≠ [] := by
      intro hh
      rw [hh] at h
      exact h1 h.eq_nil
    rw [computeProbabilitiesOn, computeProbabilitiesOn, if_neg h1, if_neg h2]
    have htot := totalScore_scoreEntries_perm w tri big uni l1 l2 h
    unfold normalizeRecord
    simp only
    rw [htot]
    by_cases hpos : 0 < totalScore (scoreEntries w tri big uni l2)
    · rw [if_pos hpos, if_pos hpos, lookup_map_div, lookup_map_div,
        lookup_scoreEntries, lookup_scoreEntries]
      simp only [h.mem_iff]
    · rw [if_neg hpos, if_neg hpos, lookup_scoreEntries, lookup_scoreEntries]
      simp only [h.mem_iff]

/-- Witness for C10 on a two-element candidate list and its transposition. -/
theorem computeProbabilitiesOn_perm_invariant_witness :
    List.lookup "a" (computeProbabilitiesOn ["a", "b"] DEFAULT_WEIGHTS [] []
        [("a", 0.5), ("b", 0.5)]) =
      List.lookup "a" (computeProbabilitiesOn ["b", "a"] DEFAULT_WEIGHTS [] []
        [("a", 0.5), ("b", 0.5)]) :=
  computeProbabilitiesOn_perm_invariant DEFAULT_WEIGHTS [] [] [("a", 0.5), ("b", 0.5)]
    ["a", "b"] ["b", "a"] (List.Perm.swap "b" "a" []) "a"

end ChordProb
